import Mathlib

/-
Shallow embedding of `src/dqueue/__init__.py` (class `DistributedQueue`),
a lease coordinator on top of Redis (redis-py 2.x, per `setup.py`).

Modelling decisions, all taken from the source and the redis-py client it
calls:
* Time is the integer `now = int(time.time())` in seconds; key expiries are
  absolute instants in milliseconds (`PEXPIRE` at second `now` with `ms`
  milliseconds sets the expiry to `now * 1000 + ms`).  Redis treats a key as
  live while `mstime() ≤ expiry`.
* The store state has three parts: the ownership string keys
  `project:project:{pid}`, the per-user claim-index zsets
  `project:user:{uid}` (kept as one flat list of (user, pid, score)
  entries; a user key exists iff the user has at least one entry), and the
  transient `project:temp:{id}` zsets written by `ZUNIONSTORE`.
* redis-py pipeline semantics: a command method called on a buffering
  pipeline queues the command and returns the pipeline object itself, and
  `Pipeline.__bool__` is `True`.  Hence in `lock_pids` the test
  `if pipe.setnx(pid_key, user_id):` is true for EVERY pid, so the
  `pexpire`, the `zadd` and the `locked_pids.add(pid)` all happen
  unconditionally; `pipe.execute()` then runs the buffered commands in
  order.  In `remove_pid`, `redis.transaction` runs the callback with the
  pipeline in immediate mode (so `pipe.get` returns the real value), and
  after `pipe.multi()` the buffered `pipe.delete(pid_key)` returns the
  pipeline object, so `if result:` is again always true; `execute()`
  returns the empty list (falsy) when nothing was buffered and a non-empty
  list (truthy) otherwise.
-/

namespace DQueue

/-- Ownership record stored at string key `project:project:{pid}`: the
owning user id (the SETNX value) plus the key's absolute expiry instant in
milliseconds (`none` when the key carries no TTL, as right after a bare
SETNX before the PEXPIRE lands). -/
structure OwnerRec where
  user : Int
  expireAtMs : Option Int
deriving Repr, DecidableEq

/-- One member of a per-user claim-index zset `project:user:{user}`:
member `pid` with score `score`, the claim timestamp in seconds
(`pipe.zadd(user_key, now, str(pid))`). -/
structure IdxEntry where
  user : Int
  pid : Int
  score : Int
deriving Repr, DecidableEq

/-- The Redis state visible to `DistributedQueue`. -/
structure RState where
  owners : Int → Option OwnerRec
  index : List IdxEntry
  temp : Int → Option (List (Int × Int))

/-- The empty store. -/
def rEmpty : RState := { owners := fun _ => none, index := [], temp := fun _ => none }

/-- The ownership record of `pid` as seen at second `now`: an expired key
(expiry instant strictly before `now * 1000`) behaves as absent. -/
def liveOwner (st : RState) (now pid : Int) : Option OwnerRec :=
  match st.owners pid with
  | none => none
  | some r =>
    match r.expireAtMs with
    | none => some r
    | some e => if now * 1000 ≤ e then some r else none

/-- `SETNX pid_key val` executed at second `now`: creates the key (with no
TTL) iff no live key exists; returns whether it wrote. -/
def setnx (st : RState) (now pid val : Int) : RState × Bool :=
  match liveOwner st now pid with
  | some _ => (st, false)
  | none =>
    ({ st with owners := fun p => if p = pid then some ⟨val, none⟩ else st.owners p }, true)

/-- `PEXPIRE pid_key ms` executed at second `now`: sets the expiry of a
live key to `now * 1000 + ms`; a no-op on an absent or expired key. -/
def pexpire (st : RState) (now pid ms : Int) : RState :=
  match liveOwner st now pid with
  | none => st
  | some r =>
    { st with owners := fun p =>
        if p = pid then some ⟨r.user, some (now * 1000 + ms)⟩ else st.owners p }

/-- `ZADD user_key score pid`: adds the member or updates its score. -/
def zadd (st : RState) (uid score pid : Int) : RState :=
  { st with index :=
      ⟨uid, pid, score⟩ :: st.index.filter (fun e => !(e.user == uid && e.pid == pid)) }

/-- `ZREM user_key pid`. -/
def zrem (st : RState) (uid pid : Int) : RState :=
  { st with index := st.index.filter (fun e => !(e.user == uid && e.pid == pid)) }

/-- `ZSCORE user_key pid`: the score of a member of a user's index. -/
def zscore (st : RState) (uid pid : Int) : Option Int :=
  (st.index.find? (fun e => e.user == uid && e.pid == pid)).map (fun e => e.score)

/-- `GET pid_key` at second `now`, parsed back to the stored user id. -/
def getOwner (st : RState) (now pid : Int) : Option Int :=
  (liveOwner st now pid).map (fun r => r.user)

/-- `DEL pid_key`. -/
def delOwner (st : RState) (pid : Int) : RState :=
  { st with owners := fun p => if p = pid then none else st.owners p }

/-- The user ids whose claim-index key `project:user:{uid}` exists, i.e.
whose zset is non-empty: what `redis.keys('project:user:*')` finds. -/
def userKeys (st : RState) : List Int :=
  (st.index.map (fun e => e.user)).dedup

/-- All member pids appearing in any user's claim index. -/
def pidsOf (st : RState) : List Int :=
  (st.index.map (fun e => e.pid)).dedup

/-- The `aggregate='max'` score of `pid` across all users' indices. -/
def maxScore (st : RState) (pid : Int) : Option Int :=
  ((st.index.filter (fun e => e.pid == pid)).map (fun e => e.score)).max?

/-- The zset `ZUNIONSTORE dest user_keys AGGREGATE MAX` builds: each pid in
any index, with its maximum score. -/
def aggregateMax (st : RState) : List (Int × Int) :=
  (pidsOf st).filterMap (fun pid => (maxScore st pid).map (fun m => (pid, m)))

/-- `retrieve_user` (lines 92-108): read the members of
`project:user:{uid}` with score in `[now - ttl, now]` (ZRANGEBYSCORE,
bounds inclusive), then `ZREMRANGEBYSCORE key -inf (birth - 60)`, i.e.
physically delete the entries of that user with score `≤ now - ttl - 60`.
Returns (post-state, result pids). -/
def retrieve_user (ttl : Int) (st : RState) (now uid : Int) : RState × List Int :=
  let birth := now - ttl
  let res := (st.index.filter (fun e =>
      e.user == uid && decide (birth ≤ e.score) && decide (e.score ≤ now))).map (fun e => e.pid)
  let st2 :=
    { st with index := st.index.filter (fun e => !(e.user == uid && decide (e.score ≤ birth - 60))) }
  (st2, res)

/-- `retrieve_all` (lines 64-90): list the `project:user:*` keys; if none,
return the empty set at once.  Otherwise `ZUNIONSTORE` all user indices
into the temp key `project:temp:{now}` with max aggregation,
`ZRANGEBYSCORE` that key over `[now - ttl, now]`, `DEL` the temp key, and
return the pids. -/
def retrieve_all (ttl : Int) (st : RState) (now : Int) : RState × List Int :=
  if userKeys st = [] then (st, [])
  else
    let birth := now - ttl
    let agg := aggregateMax st
    let stU := { st with temp := fun t => if t = now then some agg else st.temp t }
    let res :=
      (agg.filter (fun p => decide (birth ≤ p.2) && decide (p.2 ≤ now))).map (fun p => p.1)
    let stD := { stU with temp := fun t => if t = now then none else stU.temp t }
    (stD, res)

/-- One iteration of the `lock_pids` loop as it actually executes: since
`if pipe.setnx(...)` tests the buffering pipeline object (always truthy),
the buffered commands are SETNX, then PEXPIRE `ttl * 1000` ms, then ZADD
with score `now`, for every pid. -/
def lockOne (ttl now uid : Int) (st : RState) (pid : Int) : RState :=
  let st1 := (setnx st now pid uid).1
  let st2 := pexpire st1 now pid (ttl * 1000)
  zadd st2 uid now pid

/-- `lock_pids` (lines 110-131): buffer SETNX/PEXPIRE/ZADD for each pid in
order and execute; `locked_pids` accumulates EVERY pid (the conditional is
vacuously true on a pipeline), so the returned set is just the set of the
input pids. -/
def lock_pids (ttl : Int) (st : RState) (now uid : Int) (pids : List Int) :
    RState × List Int :=
  (pids.foldl (fun s pid => lockOne ttl now uid s pid) st, pids.dedup)

/-- `remove_pid` (lines 133-154): inside `redis.transaction` watching
`pid_key`, read the owner; if present and equal to `user_id`, delete the
ownership key and remove the member from the user's index (the inner
`if result:` tests the buffering pipeline, always true, and the watched
delete cannot fail sequentially); `execute()` is truthy iff commands were
buffered, i.e. iff the guard held. -/
def remove_pid (st : RState) (now uid pid : Int) : RState × Bool :=
  match getOwner st now pid with
  | none => (st, false)
  | some v => if v = uid then (zrem (delOwner st pid) uid pid, true) else (st, false)

/-- `remove_pids` (lines 156-168): loop `remove_pid` over `pids`,
collecting the pids whose removal succeeded. -/
def remove_pids (st : RState) (now uid : Int) (pids : List Int) : RState × List Int :=
  pids.foldl
    (fun acc pid =>
      let r := remove_pid acc.1 now uid pid
      (r.1, if r.2 then acc.2 ++ [pid] else acc.2))
    (st, [])

/-- `remove_all` (lines 170-175): `retrieve_user`, then `remove_pids` on
its result. -/
def remove_all (ttl : Int) (st : RState) (now uid : Int) : RState × List Int :=
  let q := retrieve_user ttl st now uid
  remove_pids q.1 now uid q.2

/-- Spec-side definition of batch release (spec §4.2): repeated
independent single-item releases, performed for each pid in order, the
result being exactly the ids whose single-item release succeeded.  Written
from the spec's words, to be compared with `remove_pids` from the source. -/
def releaseManySpec : RState → Int → Int → List Int → RState × List Int
  | st, _, _, [] => (st, [])
  | st, now, uid, pid :: rest =>
    ((releaseManySpec (remove_pid st now uid pid).1 now uid rest).1,
      if (remove_pid st now uid pid).2 then
        pid :: (releaseManySpec (remove_pid st now uid pid).1 now uid rest).2
      else (releaseManySpec (remove_pid st now uid pid).1 now uid rest).2)

/-- A store state is well formed when no user's index zset holds two
entries for the same member pid (a Redis zset cannot: ZADD updates the
score in place).  Every state reachable through the operations above is
well formed. -/
def WF (st : RState) : Prop :=
  st.index.Pairwise (fun a b => ¬(a.user = b.user ∧ a.pid = b.pid))

/-- `self.project_name` (line 55). -/
def project_name : String := "project"

/-- `self.user_name` (line 56). -/
def user_name : String := "user"

/-- `_key` (lines 58-62): `f'{self.project_name}:{infix}:{id}'`. -/
def mkKey (infx id : String) : String := project_name ++ ":" ++ infx ++ ":" ++ id

/-- The ownership key of `pid`: `_key(infix=self.project_name, id=pid)`
(lines 124 and 141). -/
def itemKeyOf (pid : Int) : String := mkKey project_name (toString pid)

/-- The claim-index key of `uid`: `_key(infix=self.user_name, id=user_id)`
(lines 69, 98, 115, 142). -/
def userKeyOf (uid : Int) : String := mkKey user_name (toString uid)

/-- The temp aggregation key: `_key(infix='temp', id=now)` (line 77). -/
def tempKeyOf (t : Int) : String := mkKey "temp" (toString t)

/-- A sample store for concrete instantiations: user 1 owns pid 7 with no
TTL on the key, and the matching index entry has timestamp 12. -/
def sampleSt : RState :=
  { owners := fun p => if p = 7 then some ⟨1, none⟩ else none
    index := [⟨1, 7, 12⟩]
    temp := fun _ => none }

theorem mem_retrieve_user_iff (ttl : Int) (st : RState) (now uid pid : Int) :
    pid ∈ (retrieve_user ttl st now uid).2 ↔
      ∃ e ∈ st.index, e.user = uid ∧ now - ttl ≤ e.score ∧ e.score ≤ now ∧ e.pid = pid := by
  simp only [retrieve_user, List.mem_map, List.mem_filter, Bool.and_eq_true, beq_iff_eq,
    decide_eq_true_eq]
  refine exists_congr fun e => ?_
  tauto

theorem mem_retrieve_user_index_iff (ttl : Int) (st : RState) (now uid : Int) (e : IdxEntry) :
    e ∈ (retrieve_user ttl st now uid).1.index ↔
      e ∈ st.index ∧ ¬(e.user = uid ∧ e.score ≤ now - ttl - 60) := by
  simp only [retrieve_user, List.mem_filter, Bool.not_eq_true', Bool.and_eq_false_iff,
    beq_eq_false_iff_ne, ne_eq, decide_eq_false_iff_not]
  tauto

theorem zscore_zrem (st : RState) (uid pid : Int) : zscore (zrem st uid pid) uid pid = none := by
  have h : ((zrem st uid pid).index.find? (fun e => e.user == uid && e.pid == pid)) = none := by
    rw [List.find?_eq_none]
    intro x hx
    simp only [zrem, List.mem_filter, Bool.not_eq_true'] at hx
    simp [hx.2]
  simp [zscore, h]

theorem remove_pid_eq_ite (st : RState) (now uid pid : Int) :
    remove_pid st now uid pid =
      if getOwner st now pid = some uid then (zrem (delOwner st pid) uid pid, true)
      else (st, false) := by
  cases h : getOwner st now pid with
  | none => simp [remove_pid, h]
  | some v =>
    by_cases hv : v = uid
    · subst hv; simp [remove_pid, h]
    · simp [remove_pid, h, hv]

/-- C2: `remove_pid` succeeds iff the ownership record of `pid` exists
(not expired) with value `uid` at call time; on success it deletes the
ownership record and removes `pid` from `uid`'s claim index, touching no
other ownership key and no other index entry; on failure (record absent or
owned by someone else) the store is completely unchanged, so in particular
an item owned by another user stays owned by that user. -/
theorem C2_remove_pid_spec (st : RState) (now uid pid : Int) :
    ((remove_pid st now uid pid).2 = true ↔ getOwner st now pid = some uid) ∧
    ((remove_pid st now uid pid).2 = false → (remove_pid st now uid pid).1 = st) ∧
    ((remove_pid st now uid pid).2 = true →
      (remove_pid st now uid pid).1.owners pid = none ∧
      zscore (remove_pid st now uid pid).1 uid pid = none ∧
      (∀ p, p ≠ pid → (remove_pid st now uid pid).1.owners p = st.owners p) ∧
      (∀ e ∈ st.index, ¬(e.user = uid ∧ e.pid = pid) → e ∈ (remove_pid st now uid pid).1.index) ∧
      (∀ e ∈ (remove_pid st now uid pid).1.index, e ∈ st.index) ∧
      (remove_pid st now uid pid).1.temp = st.temp) := by
  rw [remove_pid_eq_ite]
  by_cases h : getOwner st now pid = some uid
  · refine ⟨by simp [h], by simp [h], fun _ => ⟨?_, ?_, ?_, ?_, ?_, ?_⟩⟩
    · simp [h, zrem, delOwner]
    · simp [h, zscore_zrem]
    · intro p hp; simp [h, zrem, delOwner, hp]
    · intro e he hne
      simp only [h, if_pos, zrem, delOwner, List.mem_filter]
      refine ⟨he, ?_⟩
      simp only [Bool.not_eq_true', Bool.and_eq_false_iff, beq_eq_false_iff_ne, ne_eq]
      tauto
    · intro e he
      simp only [h, if_pos, zrem, delOwner, List.mem_filter] at he
      exact he.1
    · simp [h, zrem, delOwner]
  · simp [h]

/-- C2 witness: in `sampleSt`, where user 1 owns pid 7, the owner's
release succeeds. -/
theorem C2_witness : (remove_pid sampleSt 20 1 7).2 = true :=
  (C2_remove_pid_spec sampleSt 20 1 7).1.mpr (by decide)

/-- C5: `retrieve_user` returns exactly the pids of the caller's index
entries with timestamp in the closed horizon `[now - ttl, now]`; its only
mutation is the sweep, which keeps an index entry iff it is not an entry
of the caller with timestamp at most `now - ttl - 60` (i.e. older than the
horizon's lower end minus the fixed grace period); ownership records and
temp keys are untouched. -/
theorem C5_retrieve_user_spec (ttl : Int) (st : RState) (now uid pid : Int) (e : IdxEntry) :
    (pid ∈ (retrieve_user ttl st now uid).2 ↔
      ∃ e2 ∈ st.index, e2.user = uid ∧ now - ttl ≤ e2.score ∧ e2.score ≤ now ∧ e2.pid = pid) ∧
    (e ∈ (retrieve_user ttl st now uid).1.index ↔
      e ∈ st.index ∧ ¬(e.user = uid ∧ e.score ≤ now - ttl - 60)) ∧
    (retrieve_user ttl st now uid).1.owners = st.owners ∧
    (retrieve_user ttl st now uid).1.temp = st.temp :=
  ⟨mem_retrieve_user_iff ttl st now uid pid, mem_retrieve_user_index_iff ttl st now uid e,
    rfl, rfl⟩

/-- C5 witness: in `sampleSt` (entry timestamp 12), querying user 1 at
`now = 20` with `ttl = 10` returns pid 7. -/
theorem C5_witness : 7 ∈ (retrieve_user 10 sampleSt 20 1).2 :=
  (C5_retrieve_user_spec 10 sampleSt 20 1 7 ⟨1, 7, 12⟩).1.mpr
    ⟨⟨1, 7, 12⟩, by simp [sampleSt], rfl, by decide, by decide, rfl⟩

/-- C9: the sweep of `retrieve_user` deletes precisely the caller's index
entries with timestamp at most `now - ttl_seconds - 60` (the grace period
is exactly 60 seconds), and in a well-formed store no entry swept by a
call is returned by that same call. -/
theorem C9_sweep_grace (ttl : Int) (st : RState) (now uid : Int) (e : IdxEntry)
    (hwf : WF st) :
    ((e ∈ st.index ∧ e ∉ (retrieve_user ttl st now uid).1.index) ↔
      (e ∈ st.index ∧ e.user = uid ∧ e.score ≤ now - ttl - 60)) ∧
    (e ∈ st.index → e.user = uid → e.score ≤ now - ttl - 60 →
      e.pid ∉ (retrieve_user ttl st now uid).2) := by
  constructor
  · rw [mem_retrieve_user_index_iff]
    tauto
  · intro he hu hs hmem
    rw [mem_retrieve_user_iff] at hmem
    obtain ⟨e2, he2, hu2, h1, h2, hp2⟩ := hmem
    by_cases heq : e2 = e
    · subst heq
      omega
    · have hsym : Symmetric (fun a b : IdxEntry => ¬(a.user = b.user ∧ a.pid = b.pid)) := by
        intro a b hab hba
        exact hab ⟨hba.1.symm, hba.2.symm⟩
      exact (List.Pairwise.forall hsym hwf he2 he heq) ⟨by rw [hu2, hu], hp2⟩

/-- C9 witness: with `ttl = 10` at `now = 100`, the entry of `sampleSt`
(timestamp 12 ≤ 100 - 10 - 60) is swept and not returned. -/
theorem C9_witness : (12 : Int) ≤ 100 - 10 - 60 ∧ 7 ∉ (retrieve_user 10 sampleSt 100 1).2 :=
  ⟨by decide,
    (C9_sweep_grace 10 sampleSt 100 1 ⟨1, 7, 12⟩ (by simp [WF, sampleSt])).2
      (by simp [sampleSt]) rfl (by decide)⟩

theorem index_eq_nil_of_userKeys (st : RState) (h : userKeys st = []) : st.index = [] := by
  have h2 : st.index.map (fun e => e.user) = [] := (List.dedup_eq_nil _).mp h
  simpa using h2

theorem mem_pidsOf_of_maxScore (st : RState) (pid m : Int) (h : maxScore st pid = some m) :
    pid ∈ pidsOf st := by
  unfold maxScore at h
  rcases hl : st.index.filter (fun e => e.pid == pid) with _ | ⟨e, rest⟩
  · rw [hl] at h
    simp [List.max?] at h
  · have he : e ∈ st.index.filter (fun e => e.pid == pid) := by
      rw [hl]; exact List.mem_cons_self e rest
    rw [List.mem_filter] at he
    have hp : e.pid = pid := by simpa using he.2
    unfold pidsOf
    rw [List.mem_dedup, List.mem_map]
    exact ⟨e, he.1, hp⟩

theorem mem_retrieve_all_iff (ttl : Int) (st : RState) (now pid : Int) :
    pid ∈ (retrieve_all ttl st now).2 ↔
      ∃ m, maxScore st pid = some m ∧ now - ttl ≤ m ∧ m ≤ now := by
  unfold retrieve_all
  by_cases h : userKeys st = []
  · have hnil := index_eq_nil_of_userKeys st h
    simp only [h, if_pos, List.not_mem_nil, false_iff, not_exists, not_and]
    intro m hm
    rw [maxScore, hnil] at hm
    simp [List.max?] at hm
  · simp only [if_neg h, List.mem_map, List.mem_filter, aggregateMax, List.mem_filterMap,
      Option.map_eq_some', Bool.and_eq_true, decide_eq_true_eq]
    constructor
    · rintro ⟨⟨q, s⟩, ⟨⟨q0, hq0, m0, hm0, heq⟩, hb1, hb2⟩, rfl⟩
      injection heq with h1 h2
      subst h1
      subst h2
      exact ⟨m0, hm0, hb1, hb2⟩
    · rintro ⟨m, hm, hb1, hb2⟩
      exact ⟨(pid, m), ⟨⟨pid, mem_pidsOf_of_maxScore st pid m hm, m, hm, rfl⟩, hb1, hb2⟩, rfl⟩

/-- C6: `retrieve_all` returns exactly the pids whose maximum timestamp
across all users' indices (the max-aggregated union) lies in
`[now - ttl, now]`; the temp aggregation key (id `now`) is gone when the
call returns, no other temp key, no ownership record and no index entry is
touched, and when no user index key exists the call returns the empty set
with the store completely untouched (no aggregate is built). -/
theorem C6_retrieve_all_spec (ttl : Int) (st : RState) (now pid t : Int) :
    (pid ∈ (retrieve_all ttl st now).2 ↔
      ∃ m, maxScore st pid = some m ∧ now - ttl ≤ m ∧ m ≤ now) ∧
    (userKeys st ≠ [] → (retrieve_all ttl st now).1.temp now = none) ∧
    (t ≠ now → (retrieve_all ttl st now).1.temp t = st.temp t) ∧
    (retrieve_all ttl st now).1.owners = st.owners ∧
    (retrieve_all ttl st now).1.index = st.index ∧
    (userKeys st = [] → retrieve_all ttl st now = (st, [])) := by
  refine ⟨mem_retrieve_all_iff ttl st now pid, ?_, ?_, ?_, ?_, ?_⟩
  · intro h
    simp [retrieve_all, h]
  · intro ht
    unfold retrieve_all
    split
    · rfl
    · simp [ht]
  · unfold retrieve_all
    split <;> rfl
  · unfold retrieve_all
    split <;> rfl
  · intro h
    simp [retrieve_all, h]

/-- C6 witness: in `sampleSt` (one entry, timestamp 12), `retrieve_all`
at `now = 20` with `ttl = 10` returns pid 7. -/
theorem C6_witness : 7 ∈ (retrieve_all 10 sampleSt 20).2 :=
  (C6_retrieve_all_spec 10 sampleSt 20 7 0).1.mpr ⟨12, by decide, by decide, by decide⟩

theorem setnx_index (st : RState) (now pid v : Int) : (setnx st now pid v).1.index = st.index := by
  unfold setnx
  cases liveOwner st now pid <;> rfl

theorem pexpire_index (st : RState) (now pid ms : Int) :
    (pexpire st now pid ms).index = st.index := by
  unfold pexpire
  cases liveOwner st now pid <;> rfl

theorem lock_single_index (ttl t0 uid pid : Int) (st : RState) :
    (lock_pids ttl st t0 uid [pid]).1.index =
      ⟨uid, pid, t0⟩ :: st.index.filter (fun e => !(e.user == uid && e.pid == pid)) := by
  show (zadd (pexpire (setnx st t0 pid uid).1 t0 pid (ttl * 1000)) uid t0 pid).index = _
  simp [zadd, pexpire_index, setnx_index]

/-- C4 counterexample: with `ttl_seconds = 10`, pid 7 claimed at
`t0 = 100` and never released, both queries at `now = 110 = t0 + ttl`
(so `now ≥ t0 + ttl`) still return 7: ZRANGEBYSCORE includes the lower
bound `now - ttl`, so exactly at expiry the id is still reported. -/
theorem C4_counterexample :
    7 ∈ (retrieve_user 10 (lock_pids 10 rEmpty 100 1 [7]).1 110 1).2 ∧
    7 ∈ (retrieve_all 10 (lock_pids 10 rEmpty 100 1 [7]).1 110).2 := by decide

/-- C4 amended: with `ttl_seconds = ttl`, if pid is claimed at `t0` into
a store holding no index entry for that pid, then at any `now` STRICTLY
later than `t0 + ttl` the pid is absent from both `retrieve_user` and
`retrieve_all`. -/
theorem C4_expiry_after_horizon (ttl t0 now uid pid : Int) (st : RState)
    (hfresh : ∀ e ∈ st.index, e.pid ≠ pid) (hnow : t0 + ttl < now) :
    pid ∉ (retrieve_user ttl (lock_pids ttl st t0 uid [pid]).1 now uid).2 ∧
    pid ∉ (retrieve_all ttl (lock_pids ttl st t0 uid [pid]).1 now).2 := by
  have hidx := lock_single_index ttl t0 uid pid st
  constructor
  · rw [mem_retrieve_user_iff]
    rintro ⟨e, he, hu, h1, h2, hp⟩
    rw [hidx] at he
    rcases List.mem_cons.mp he with rfl | hmem
    · simp only at h1
      omega
    · exact hfresh e (List.mem_of_mem_filter hmem) hp
  · rw [mem_retrieve_all_iff]
    rintro ⟨m, hm, h1, h2⟩
    have hmax : maxScore (lock_pids ttl st t0 uid [pid]).1 pid = some t0 := by
      unfold maxScore
      rw [hidx]
      have hnil : (st.index.filter (fun e => !(e.user == uid && e.pid == pid))).filter
          (fun e => e.pid == pid) = [] := by
        rw [List.filter_eq_nil_iff]
        intro a ha
        have := hfresh a (List.mem_of_mem_filter ha)
        simp [this]
      rw [List.filter_cons]
      simp only [beq_self_eq_true, if_pos, hnil]
      rfl
    rw [hmax] at hm
    obtain rfl : m = t0 := (Option.some_inj.mp hm).symm
    omega

/-- C4 witness: the amended statement at `ttl = 10`, `t0 = 100`,
`now = 111 > t0 + ttl`, on the empty store. -/
theorem C4_witness :
    7 ∉ (retrieve_user 10 (lock_pids 10 rEmpty 100 1 [7]).1 111 1).2 ∧
    7 ∉ (retrieve_all 10 (lock_pids 10 rEmpty 100 1 [7]).1 111).2 :=
  C4_expiry_after_horizon 10 100 111 1 7 rEmpty (by simp [rEmpty]) (by decide)

/-- C1: evaluation of `lock_pids` at the failing input.  User 1 claims
pids 1 and 2 at t = 100 (ttl 600 s), so both are owned by user 1 and
live at t = 150; yet `lock_pids` for user 2 on the same two pids returns
the full set {1, 2} instead of the empty set the claim requires: the
truthiness test of `pipe.setnx(...)` sees the buffering pipeline object,
which is always true, so every pid lands in `locked_pids`. -/
theorem C1_lock_returns_owned_ids :
    (lock_pids 600 rEmpty 100 1 [1, 2]).2 = [1, 2] ∧
    getOwner (lock_pids 600 rEmpty 100 1 [1, 2]).1 150 1 = some 1 ∧
    getOwner (lock_pids 600 rEmpty 100 1 [1, 2]).1 150 2 = some 1 ∧
    (lock_pids 600 (lock_pids 600 rEmpty 100 1 [1, 2]).1 150 2 [1, 2]).2 = [1, 2] := by decide

/-- C3: evaluation of a re-claim at the failing input.  User 1 claims
pid 1 at t = 100 (ttl 600 s): the ownership key expires at 700000 ms and
the index timestamp is 100.  Re-claiming the same pid at t = 150 returns
{1} (the claim requires 1 to be absent), moves the expiry to 750000 ms
(the PEXPIRE buffered by the vacuously-true pipeline test fires on the
existing key) and moves the index timestamp to 150 (ZADD updates the
score): the code renews the lease on re-claim. -/
theorem C3_reclaim_renews_lease :
    (lock_pids 600 rEmpty 100 1 [1]).1.owners 1 = some ⟨1, some 700000⟩ ∧
    zscore (lock_pids 600 rEmpty 100 1 [1]).1 1 1 = some 100 ∧
    (lock_pids 600 (lock_pids 600 rEmpty 100 1 [1]).1 150 1 [1]).2 = [1] ∧
    (lock_pids 600 (lock_pids 600 rEmpty 100 1 [1]).1 150 1 [1]).1.owners 1 =
      some ⟨1, some 750000⟩ ∧
    zscore (lock_pids 600 (lock_pids 600 rEmpty 100 1 [1]).1 150 1 [1]).1 1 1 = some 150 := by
  decide

theorem remove_pids_go (now uid : Int) (pids : List Int) (st : RState) (acc : List Int) :
    pids.foldl
      (fun a pid =>
        let r := remove_pid a.1 now uid pid
        (r.1, if r.2 then a.2 ++ [pid] else a.2))
      (st, acc) =
      ((releaseManySpec st now uid pids).1, acc ++ (releaseManySpec st now uid pids).2) := by
  induction pids generalizing st acc with
  | nil => simp [releaseManySpec]
  | cons p ps ih =>
    simp only [List.foldl_cons]
    cases h : (remove_pid st now uid p).2
    · simp [releaseManySpec, h, ih]
    · simp [releaseManySpec, h, ih]

theorem remove_pids_eq_spec (st : RState) (now uid : Int) (pids : List Int) :
    remove_pids st now uid pids = releaseManySpec st now uid pids := by
  unfold remove_pids
  rw [remove_pids_go]
  simp

theorem releaseManySpec_sub (now uid : Int) (pids : List Int) (st : RState) :
    ∀ pid ∈ (releaseManySpec st now uid pids).2, pid ∈ pids := by
  induction pids generalizing st with
  | nil => simp [releaseManySpec]
  | cons p ps ih =>
    intro pid hmem
    simp only [releaseManySpec] at hmem
    cases h : (remove_pid st now uid p).2 <;> rw [h] at hmem
    · simp only [if_neg Bool.false_ne_true] at hmem
      exact List.mem_cons_of_mem p (ih _ pid hmem)
    · simp only [if_pos rfl] at hmem
      rcases List.mem_cons.mp hmem with rfl | hm
      · exact List.mem_cons_self pid ps
      · exact List.mem_cons_of_mem p (ih _ pid hm)

/-- C7: batch release equals performing the single-item release for each
pid independently in order (the spec-side `releaseManySpec`), and returns
exactly the ids whose single-item release succeeded, which is a subset of
the requested ids — per-item outcomes, no cross-item atomicity. -/
theorem C7_remove_pids_eq_repeated_release (st : RState) (now uid : Int) (pids : List Int) :
    remove_pids st now uid pids = releaseManySpec st now uid pids ∧
    ∀ pid ∈ (remove_pids st now uid pids).2, pid ∈ pids := by
  refine ⟨remove_pids_eq_spec st now uid pids, ?_⟩
  rw [remove_pids_eq_spec]
  exact releaseManySpec_sub now uid pids st

/-- C7 witness: a concrete batch containing one owned pid (7) and one
unowned pid (9): release of 7 succeeds, of 9 fails. -/
theorem C7_witness :
    remove_pids sampleSt 20 1 [7, 9] = releaseManySpec sampleSt 20 1 [7, 9] ∧
      (7 : Int) ∈ ([7, 9] : List Int) :=
  ⟨(C7_remove_pids_eq_repeated_release sampleSt 20 1 [7, 9]).1,
    (C7_remove_pids_eq_repeated_release sampleSt 20 1 [7, 9]).2 7 (by decide)⟩

theorem releaseManySpec_owners_frame (now uid : Int) (pids : List Int) (st : RState) (pid : Int)
    (h : pid ∉ pids) : (releaseManySpec st now uid pids).1.owners pid = st.owners pid := by
  induction pids generalizing st with
  | nil => rfl
  | cons p ps ih =>
    have hp : pid ≠ p := by
      intro he
      exact h (he ▸ List.mem_cons_self p ps)
    have hps : pid ∉ ps := fun hm => h (List.mem_cons_of_mem p hm)
    show (releaseManySpec (remove_pid st now uid p).1 now uid ps).1.owners pid = _
    rw [ih _ hps, remove_pid_eq_ite]
    split
    · simp [zrem, delOwner, hp]
    · rfl

/-- C8: `remove_all` is exactly `remove_pids` applied to the result (and
post-state) of `retrieve_user`, so it attempts to release only the ids
whose index timestamp lies in the horizon `[now - ttl, now]`; the
ownership record of any pid not returned by that query is left untouched
(stale out-of-horizon index entries are never released). -/
theorem C8_remove_all_spec (ttl : Int) (st : RState) (now uid : Int) :
    remove_all ttl st now uid =
      remove_pids (retrieve_user ttl st now uid).1 now uid (retrieve_user ttl st now uid).2 ∧
    ∀ pid, pid ∉ (retrieve_user ttl st now uid).2 →
      (remove_all ttl st now uid).1.owners pid = st.owners pid := by
  refine ⟨rfl, ?_⟩
  intro pid hpid
  show (remove_pids (retrieve_user ttl st now uid).1 now uid
      (retrieve_user ttl st now uid).2).1.owners pid = _
  rw [remove_pids_eq_spec, releaseManySpec_owners_frame now uid _ _ pid hpid]
  rfl

/-- C8 witness: pid 9 is not in user 1's queue in `sampleSt`, so
`remove_all` leaves its (absent) ownership record alone. -/
theorem C8_witness : (remove_all 10 sampleSt 20 1).1.owners 9 = sampleSt.owners 9 :=
  (C8_remove_all_spec 10 sampleSt 20 1).2 9 (by decide)

/-- C10 counterexample: the ownership record key for item 1 is
`_key(infix=self.project_name, id=1)`, i.e. kind component `project`
(not `item`): it is none of the keys `{namespace}:{kind}:{1}` with
`kind ∈ {item, user, temp}` and namespace `project`. -/
theorem C10_counterexample :
    itemKeyOf 1 = mkKey "project" "1" ∧
    "project" ∉ (["item", "user", "temp"] : List String) ∧
    (∀ kind ∈ (["item", "user", "temp"] : List String), itemKeyOf 1 ≠ mkKey kind "1") := by
  decide

/-- C10 amended: every key has the form `{namespace}:{kind}:{id}` with
namespace `project` and `kind ∈ {project, user, temp}`: ownership records
use the `project` kind (the code passes `self.project_name` as the infix,
so namespace and item kind coincide), per-user claim indices the `user`
kind, and the transient aggregate of `retrieve_all` the `temp` kind. -/
theorem C10_key_shape (pid uid t : Int) (infx id : String) :
    mkKey infx id = project_name ++ ":" ++ infx ++ ":" ++ id ∧
    itemKeyOf pid = mkKey "project" (toString pid) ∧
    userKeyOf uid = mkKey "user" (toString uid) ∧
    tempKeyOf t = mkKey "temp" (toString t) ∧
    project_name = "project" ∧
    "project" ∈ (["project", "user", "temp"] : List String) ∧
    "user" ∈ (["project", "user", "temp"] : List String) ∧
    "temp" ∈ (["project", "user", "temp"] : List String) :=
  ⟨rfl, rfl, rfl, rfl, rfl, by decide, by decide, by decide⟩

end DQueue
